import Mathlib

/-!
Shallow embedding of `fastenum` (src/fastenum/fastenum.py): an enumeration
metaclass that turns ordered class-body bindings into singleton members with
a name index (`_member_map_`, an OrderedDict) and a best-effort value index
(`_value_to_member_map_`, a dict populated only for hashable values), plus
the read-only query operations `__call__`, `__getitem__`, `__iter__`,
`__reversed__`, `__len__` and the member behavior `__hash__`, `__str__`,
`__repr__`.

Python values are modelled by the inductive `PyVal`; Python `==` on these
values is structural equality (ints, strings and lists compare by content,
plain objects by identity, which the `obj` constructor carries as a tag).
Lists are the unhashable values.  Dictionaries are modelled as association
lists with Python dict semantics: inserting an equal key replaces the mapped
value in place (keeping the original key and its position), lookup finds the
unique equal key.
-/

namespace Fastenum

/-- Model of a Python value used in an enum class body.  `list` is a mutable
list (of ints — enough to model an unhashable composite that compares by
content); `obj g s d i` is a generic object with identity tag `i` that has
`__get__` / `__set__` / `__delete__` accessors according to the three flags.
Python `==` on this universe of values is structural equality. -/
inductive PyVal where
  | int : Int → PyVal
  | str : String → PyVal
  | list : List Int → PyVal
  | obj : Bool → Bool → Bool → Nat → PyVal
deriving DecidableEq, Repr

/-- Python hashability: lists are unhashable, everything else here is. -/
def PyVal.hashable : PyVal → Bool
  | .list _ => false
  | _ => true

/-- Python hasattr check for the accessor attribute get. -/
def PyVal.hasGet : PyVal → Bool
  | .obj g _ _ _ => g
  | _ => false

/-- Python hasattr check for the accessor attribute set. -/
def PyVal.hasSet : PyVal → Bool
  | .obj _ s _ _ => s
  | _ => false

/-- Python hasattr check for the accessor attribute delete. -/
def PyVal.hasDelete : PyVal → Bool
  | .obj _ _ d _ => d
  | _ => false

/-- Model of the source function checking for a descriptor: true iff the
object exposes any of the three accessor attributes (fastenum.py
lines 14-16). -/
def is_descriptor (v : PyVal) : Bool :=
  v.hasGet || v.hasSet || v.hasDelete

/-- Model of Python `hash` on strings (the concrete values are irrelevant;
only that a member caches exactly `hash(name)` matters). -/
def pyHashStr (s : String) : Int :=
  s.data.foldl (fun h c => h * 31 + Int.ofNat c.toNat) 7

/-- Model of Python `repr` on `PyVal`. -/
def pyRepr : PyVal → String
  | .int n => toString n
  | .str s => "\x27" ++ s ++ "\x27"
  | .obj _ _ _ i => "<object " ++ toString i ++ ">"
  | .list xs => "[" ++ String.intercalate ", " (xs.map toString) ++ "]"

/-- Model of Python `str` on `PyVal` (as used by percent-formatting when
building the invalid-value error message). -/
def pyStr : PyVal → String
  | .str s => s
  | v => pyRepr v

/-- One enum member singleton.  `cls` is the owning class (its name), `idx`
the creation order (giving object identity), `mhash` the cached `_hash`
(`hash(name)`, fastenum.py line 44) and `mrepr` the cached `_repr`
(fastenum.py line 43). -/
structure Member where
  cls : String
  idx : Nat
  name : String
  value : PyVal
  mhash : Int
  mrepr : String
deriving DecidableEq, Repr

/-- Member creation (fastenum.py lines 39-44): allocate, set `name` and
`value`, cache `_repr` and `_hash`. -/
def mkMember (cls name : String) (value : PyVal) (idx : Nat) : Member :=
  { cls := cls, idx := idx, name := name, value := value
    mhash := pyHashStr name
    mrepr := "<" ++ cls ++ "." ++ name ++ ": " ++ pyRepr value ++ ">" }

/-- Check modelling startswith on the underscore marker: true iff the first
character of the name is an underscore. -/
def startswithUnderscore (s : String) : Bool :=
  match s.data with
  | [] => false
  | c :: _ => c == '_'

/-- The filter of fastenum.py line 38: a binding becomes a member unless its
name starts with an underscore or its value is a descriptor. -/
def skipBinding (name : String) (value : PyVal) : Bool :=
  startswithUnderscore name || is_descriptor value

/-- Insertion (OrderedDict setitem) into the name index `_member_map_`,
keyed by the name of the member: replace in place if the key exists
(keeping its position), else append. -/
def odInsert (ms : List Member) (m : Member) : List Member :=
  match ms with
  | [] => [m]
  | x :: rest => if x.name == m.name then m :: rest else x :: odInsert rest m

/-- Insertion (dict setitem) into the value index: replace the mapped
member at the `==`-equal key (keeping the original key object and its
position), else append. -/
def dictSet (vm : List (PyVal × Member)) (k : PyVal) (m : Member) :
    List (PyVal × Member) :=
  match vm with
  | [] => [(k, m)]
  | p :: rest => if p.1 == k then (p.1, m) :: rest else p :: dictSet rest k m

/-- The guarded insertion of fastenum.py lines 50-55: unhashable keys raise
`TypeError`, which is caught and ignored, so the index is unchanged. -/
def valueMapInsert (vm : List (PyVal × Member)) (k : PyVal) (m : Member) :
    List (PyVal × Member) :=
  if k.hashable then dictSet vm k m else vm

/-- Lookup (dict getitem) in the value index, as an `Option`: `none` stands for
both `TypeError` (unhashable key) and `KeyError` (absent key), the two
exceptions caught at fastenum.py line 68. -/
def dictGet? (vm : List (PyVal × Member)) (k : PyVal) : Option Member :=
  if k.hashable then (vm.find? (fun p => p.1 == k)).map Prod.snd else none

/-- A constructed enumeration type: its name, `_member_map_` (values in
insertion order) and `_value_to_member_map_`. -/
structure EnumType where
  ename : String
  members : List Member
  valueMap : List (PyVal × Member)
deriving DecidableEq, Repr

/-- Python exceptions surfaced by the embedded operations. -/
inductive PyErr where
  | valueError : String → PyErr
  | keyError : String → PyErr
  | hookError : String → PyErr
deriving DecidableEq, Repr

instance {ε α : Type} [DecidableEq ε] [DecidableEq α] : DecidableEq (Except ε α) :=
  fun a b =>
    match a, b with
    | .ok a, .ok b =>
      if h : a = b then .isTrue (by rw [h]) else .isFalse (by simp [h])
    | .error a, .error b =>
      if h : a = b then .isTrue (by rw [h]) else .isFalse (by simp [h])
    | .ok _, .error _ => .isFalse (by simp)
    | .error _, .ok _ => .isFalse (by simp)

/-- The loop of `EnumMeta.__new__` (fastenum.py lines 37-55): walk the
classdict in order; for each non-skipped binding create the member and
insert it into the name index and (if its value is hashable) the value
index.  `idx` numbers created members, giving them identity. -/
def buildMembers (cls : String) :
    List (String × PyVal) → List Member → List (PyVal × Member) → Nat →
    List Member × List (PyVal × Member)
  | [], ms, vm, _ => (ms, vm)
  | (n, v) :: rest, ms, vm, idx =>
    if skipBinding n v then buildMembers cls rest ms vm idx
    else
      buildMembers cls rest (odInsert ms (mkMember cls n v idx))
        (valueMapInsert vm v (mkMember cls n v idx)) (idx + 1)

/-- Construction (`EnumMeta.__new__`) for the base member type, whose
per-member init hook (object init) never raises: the classdict is the
ordered list of class-body bindings, captured by the OrderedDict that
`__prepare__` returns, so its keys are distinct. -/
def enumNew (cls : String) (classdict : List (String × PyVal)) : EnumType :=
  { ename := cls
    members := (buildMembers cls classdict [] [] 0).1
    valueMap := (buildMembers cls classdict [] [] 0).2 }

/-- The loop of `EnumMeta.__new__` with an explicit per-member `__init__`
hook (fastenum.py line 47): the hook runs right after the member is built;
an exception it raises propagates out of the loop unmodified. -/
def buildMembersH (hook : Member → Except PyErr Unit) (cls : String) :
    List (String × PyVal) → List Member → List (PyVal × Member) → Nat →
    Except PyErr (List Member × List (PyVal × Member))
  | [], ms, vm, _ => .ok (ms, vm)
  | (n, v) :: rest, ms, vm, idx =>
    if skipBinding n v then buildMembersH hook cls rest ms vm idx
    else
      match hook (mkMember cls n v idx) with
      | .error e => .error e
      | .ok () =>
        buildMembersH hook cls rest (odInsert ms (mkMember cls n v idx))
          (valueMapInsert vm v (mkMember cls n v idx)) (idx + 1)

/-- Construction (`EnumMeta.__new__`) with an explicit per-member init
hook: the type is published only if every hook call succeeded. -/
def enumNewH (hook : Member → Except PyErr Unit) (cls : String)
    (classdict : List (String × PyVal)) : Except PyErr EnumType :=
  (buildMembersH hook cls classdict [] [] 0).map fun p =>
    { ename := cls, members := p.1, valueMap := p.2 }

/-- An argument to `EnumMeta.__call__`: either a plain value or a member
object (needed because `isinstance(value, cls)` distinguishes them). -/
inductive CallArg where
  | val : PyVal → CallArg
  | mem : Member → CallArg
deriving DecidableEq, Repr

/-- Human display (`Enum.__str__`, fastenum.py lines 99-100): class name,
dot, member name. -/
def enumStr (m : Member) : String :=
  m.cls ++ "." ++ m.name

/-- The message of the `ValueError` at fastenum.py line 73:
`"%s is not a valid %s" % (value, cls.__name__)`. -/
def invalidValueMsg (value cls : String) : String :=
  value ++ " is not a valid " ++ cls

/-- Coerce-or-convert (`EnumMeta.__call__`, fastenum.py lines 60-73):
return a member argument of this type unchanged; otherwise try the value
index (`KeyError` and `TypeError` both fall through), then the linear scan
over `_member_map_` values in order; finally raise `ValueError`.  A member
of another type matches neither the index keys nor the value of any member
(object equality is identity), so it reaches the `ValueError` directly. -/
def enumCall (t : EnumType) : CallArg → Except PyErr Member
  | .mem m =>
    if m.cls == t.ename then .ok m
    else .error (.valueError (invalidValueMsg (enumStr m) t.ename))
  | .val v =>
    match dictGet? t.valueMap v with
    | some m => .ok m
    | none =>
      match t.members.find? (fun m => m.value == v) with
      | some m => .ok m
      | none => .error (.valueError (invalidValueMsg (pyStr v) t.ename))

/-- Lookup-by-name (`EnumMeta.__getitem__`, fastenum.py lines 76-77):
`_member_map_[name]`, raising `KeyError(name)` when absent. -/
def enumGetitem (t : EnumType) (name : String) : Except PyErr Member :=
  match t.members.find? (fun m => m.name == name) with
  | some m => .ok m
  | none => .error (.keyError name)

/-- Forward iteration (`EnumMeta.__iter__`, fastenum.py lines 80-81):
`_member_map_` values in insertion order. -/
def enumIter (t : EnumType) : List Member :=
  t.members

/-- Reverse iteration (`EnumMeta.__reversed__`, fastenum.py lines 84-85):
`reversed(list(cls))`, i.e. the materialized forward sequence, reversed. -/
def enumReversed (t : EnumType) : List Member :=
  (enumIter t).reverse

/-- Length (`EnumMeta.__len__`, fastenum.py lines 88-89). -/
def enumLen (t : EnumType) : Nat :=
  t.members.length

/-- Hashing (`Enum.__hash__`, fastenum.py lines 102-104): the cached
field corresponding to the source attribute holding the hash. -/
def enumHash (m : Member) : Int :=
  m.mhash

/-- Debug display (`Enum.__repr__`, fastenum.py lines 95-97): the cached
field corresponding to the source attribute holding the repr string. -/
def enumRepr (m : Member) : String :=
  m.mrepr

/-- Declaration-order description of the member list: one `mkMember` per
non-skipped binding, in order, numbered consecutively.  Used to state what
`buildMembers` produces. -/
def mkList (cls : String) : List (String × PyVal) → Nat → List Member
  | [], _ => []
  | (n, v) :: rest, idx =>
    if skipBinding n v then mkList cls rest idx
    else mkMember cls n v idx :: mkList cls rest (idx + 1)

/-! ### Properties of the two index-insertion operations -/

theorem mem_odInsert {ms : List Member} {m x : Member} (h : x ∈ odInsert ms m) :
    x ∈ ms ∨ x = m := by
  induction ms with
  | nil =>
    simp only [odInsert, List.mem_singleton] at h
    exact Or.inr h
  | cons y rest ih =>
    simp only [odInsert] at h
    by_cases hy : (y.name == m.name) = true
    · rw [if_pos hy] at h
      rcases List.mem_cons.1 h with h | h
      · exact Or.inr h
      · exact Or.inl (List.mem_cons_of_mem _ h)
    · rw [if_neg hy] at h
      rcases List.mem_cons.1 h with h | h
      · exact Or.inl (by simp [h])
      · rcases ih h with h | h
        · exact Or.inl (List.mem_cons_of_mem _ h)
        · exact Or.inr h

theorem odInsert_fresh {ms : List Member} {m : Member}
    (h : ∀ x ∈ ms, x.name ≠ m.name) : odInsert ms m = ms ++ [m] := by
  induction ms with
  | nil => rfl
  | cons y rest ih =>
    have hy : (y.name == m.name) = false :=
      beq_eq_false_iff_ne.2 (h y (List.mem_cons_self y rest))
    simp [odInsert, hy, ih (fun x hx => h x (List.mem_cons_of_mem _ hx))]

theorem mem_dictSet {vm : List (PyVal × Member)} {k : PyVal} {m : Member}
    {q : PyVal × Member} (h : q ∈ dictSet vm k m) : q.2 = m ∨ q ∈ vm := by
  induction vm with
  | nil =>
    simp only [dictSet, List.mem_singleton] at h
    exact Or.inl (by rw [h])
  | cons p rest ih =>
    simp only [dictSet] at h
    by_cases hp : (p.1 == k) = true
    · rw [if_pos hp] at h
      rcases List.mem_cons.1 h with h | h
      · exact Or.inl (by rw [h])
      · exact Or.inr (List.mem_cons_of_mem _ h)
    · rw [if_neg hp] at h
      rcases List.mem_cons.1 h with h | h
      · exact Or.inr (by simp [h])
      · rcases ih h with h | h
        · exact Or.inl h
        · exact Or.inr (List.mem_cons_of_mem _ h)

theorem find?_dictSet_self (vm : List (PyVal × Member)) (k : PyVal) (m : Member) :
    ((dictSet vm k m).find? (fun p => p.1 == k)).map Prod.snd = some m := by
  induction vm with
  | nil => simp [dictSet]
  | cons p rest ih =>
    by_cases hp : (p.1 == k) = true
    · simp [dictSet, hp]
    · have hp' : (p.1 == k) = false := by simpa using hp
      simp only [dictSet, if_neg hp, List.find?, hp']
      exact ih

theorem find?_dictSet_ne {k k' : PyVal} (hne : k' ≠ k)
    (vm : List (PyVal × Member)) (m : Member) :
    (dictSet vm k' m).find? (fun p => p.1 == k) = vm.find? (fun p => p.1 == k) := by
  induction vm with
  | nil => simp [dictSet, beq_eq_false_iff_ne.2 hne]
  | cons p rest ih =>
    by_cases hp : (p.1 == k') = true
    · have hp1 : p.1 = k' := beq_iff_eq.1 hp
      have hk : (p.1 == k) = false := beq_eq_false_iff_ne.2 (hp1 ▸ hne)
      simp only [dictSet, if_pos hp, List.find?, hk]
    · simp only [dictSet, if_neg hp]
      by_cases hk : (p.1 == k) = true
      · simp only [List.find?, hk]
      · have hk' : (p.1 == k) = false := by simpa using hk
        simp only [List.find?, hk']
        exact ih

theorem dictGet?_dictSet_same {k : PyVal} (hk : k.hashable = true)
    (vm : List (PyVal × Member)) (m : Member) :
    dictGet? (dictSet vm k m) k = some m := by
  rw [dictGet?, if_pos hk]
  exact find?_dictSet_self vm k m

theorem dictGet?_dictSet_ne {k k' : PyVal} (hne : k' ≠ k)
    (vm : List (PyVal × Member)) (m : Member) :
    dictGet? (dictSet vm k' m) k = dictGet? vm k := by
  by_cases hk : k.hashable = true
  · rw [dictGet?, dictGet?, if_pos hk, if_pos hk, find?_dictSet_ne hne]
  · rw [dictGet?, dictGet?, if_neg hk, if_neg hk]

/-! ### Characterization of the constructed type

`mkList` is the declaration-order description of the member list: one
`mkMember` per non-skipped binding, numbered consecutively.  The lemmas
below show that `buildMembers` (whose name index is built by in-place
`OrderedDict` insertion) produces exactly this list whenever the classdict
keys are distinct — which they always are, the classdict being a dict. -/

theorem mkList_pairs (cls : String) (cd : List (String × PyVal)) (idx : Nat) :
    (mkList cls cd idx).map (fun m => (m.name, m.value))
      = cd.filter (fun b => !skipBinding b.1 b.2) := by
  induction cd generalizing idx with
  | nil => rfl
  | cons b rest ih =>
    obtain ⟨n, v⟩ := b
    by_cases hs : skipBinding n v = true
    · simp [mkList, List.filter, hs, ih]
    · have hs' : skipBinding n v = false := by simpa using hs
      simp [mkList, List.filter, hs', mkMember, ih]

theorem mkList_names (cls : String) (cd : List (String × PyVal)) (idx : Nat) :
    (mkList cls cd idx).map Member.name
      = (cd.filter (fun b => !skipBinding b.1 b.2)).map Prod.fst := by
  have h := congrArg (List.map Prod.fst) (mkList_pairs cls cd idx)
  simpa [List.map_map, Function.comp] using h

theorem mkList_shape {cls : String} {cd : List (String × PyVal)} {idx : Nat}
    {m : Member} (h : m ∈ mkList cls cd idx) :
    ∃ n v i, m = mkMember cls n v i := by
  induction cd generalizing idx with
  | nil => cases h
  | cons b rest ih =>
    obtain ⟨n, v⟩ := b
    by_cases hs : skipBinding n v = true
    · rw [mkList, if_pos hs] at h
      exact ih h
    · rw [mkList, if_neg hs] at h
      rcases List.mem_cons.1 h with h | h
      · exact ⟨n, v, idx, h⟩
      · exact ih h

theorem buildMembers_fst (cls : String) (cd : List (String × PyVal)) :
    ∀ (ms : List Member) (vm : List (PyVal × Member)) (idx : Nat),
      (∀ x ∈ ms, ∀ b ∈ cd, x.name ≠ b.1) →
      (cd.map Prod.fst).Nodup →
      (buildMembers cls cd ms vm idx).1 = ms ++ mkList cls cd idx := by
  induction cd with
  | nil =>
    intro ms vm idx _ _
    simp [buildMembers, mkList]
  | cons b rest ih =>
    obtain ⟨n, v⟩ := b
    intro ms vm idx hd hnd
    have hnd' : (rest.map Prod.fst).Nodup := (List.nodup_cons.1 (by simpa using hnd)).2
    have hn : n ∉ rest.map Prod.fst := (List.nodup_cons.1 (by simpa using hnd)).1
    by_cases hs : skipBinding n v = true
    · rw [buildMembers, if_pos hs, mkList, if_pos hs]
      exact ih ms vm idx (fun x hx b hb => hd x hx b (List.mem_cons_of_mem _ hb)) hnd'
    · have hfresh : ∀ x ∈ ms, x.name ≠ (mkMember cls n v idx).name := by
        intro x hx
        simpa [mkMember] using hd x hx (n, v) (List.mem_cons_self _ _)
      rw [buildMembers, if_neg hs, mkList, if_neg hs, odInsert_fresh hfresh]
      rw [ih (ms ++ [mkMember cls n v idx]) (valueMapInsert vm v (mkMember cls n v idx))
            (idx + 1) ?_ hnd']
      · rw [List.append_assoc]
        rfl
      · intro x hx b hb
        rcases List.mem_append.1 hx with hx | hx
        · exact hd x hx b (List.mem_cons_of_mem _ hb)
        · have hxm : x = mkMember cls n v idx := by simpa using hx
          rw [hxm]
          show n ≠ b.1
          intro heq
          exact hn (heq ▸ List.mem_map_of_mem Prod.fst hb)

theorem buildMembers_snd (cls : String) (cd : List (String × PyVal)) :
    ∀ (ms : List Member) (vm : List (PyVal × Member)) (idx : Nat),
      (∀ x ∈ ms, ∀ b ∈ cd, x.name ≠ b.1) →
      (cd.map Prod.fst).Nodup →
      (∀ k, k.hashable = true →
        dictGet? vm k = ((ms.filter fun x => x.value == k).getLast?)) →
      ∀ k, k.hashable = true →
        dictGet? (buildMembers cls cd ms vm idx).2 k
          = (((buildMembers cls cd ms vm idx).1.filter fun x => x.value == k).getLast?) := by
  induction cd with
  | nil =>
    intro ms vm idx _ _ hinv k hk
    simpa [buildMembers] using hinv k hk
  | cons b rest ih =>
    obtain ⟨n, v⟩ := b
    intro ms vm idx hd hnd hinv
    have hnd' : (rest.map Prod.fst).Nodup := (List.nodup_cons.1 (by simpa using hnd)).2
    have hn : n ∉ rest.map Prod.fst := (List.nodup_cons.1 (by simpa using hnd)).1
    by_cases hs : skipBinding n v = true
    · rw [buildMembers, if_pos hs]
      exact ih ms vm idx (fun x hx b hb => hd x hx b (List.mem_cons_of_mem _ hb)) hnd' hinv
    · have hfresh : ∀ x ∈ ms, x.name ≠ (mkMember cls n v idx).name := by
        intro x hx
        simpa [mkMember] using hd x hx (n, v) (List.mem_cons_self _ _)
      rw [buildMembers, if_neg hs, odInsert_fresh hfresh]
      apply ih (ms ++ [mkMember cls n v idx]) (valueMapInsert vm v (mkMember cls n v idx))
        (idx + 1)
      · intro x hx b hb
        rcases List.mem_append.1 hx with hx | hx
        · exact hd x hx b (List.mem_cons_of_mem _ hb)
        · have hxm : x = mkMember cls n v idx := by simpa using hx
          rw [hxm]
          show n ≠ b.1
          intro heq
          exact hn (heq ▸ List.mem_map_of_mem Prod.fst hb)
      · exact hnd'
      · intro k hk
        have hmv : (mkMember cls n v idx).value = v := rfl
        by_cases hvk : v = k
        · subst hvk
          rw [valueMapInsert, if_pos hk, dictGet?_dictSet_same hk]
          rw [List.filter_append]
          simp [hmv]
        · have hfilter : (ms ++ [mkMember cls n v idx]).filter (fun x => x.value == k)
              = ms.filter (fun x => x.value == k) := by
            rw [List.filter_append]
            simp [hmv, beq_eq_false_iff_ne.2 hvk]
          rw [hfilter]
          by_cases hv : v.hashable = true
          · rw [valueMapInsert, if_pos hv, dictGet?_dictSet_ne hvk]
            exact hinv k hk
          · rw [valueMapInsert, if_neg hv]
            exact hinv k hk

theorem buildMembers_vm_sub (cls : String) (cd : List (String × PyVal)) :
    ∀ (ms : List Member) (vm : List (PyVal × Member)) (idx : Nat),
      (∀ x ∈ ms, ∀ b ∈ cd, x.name ≠ b.1) →
      (cd.map Prod.fst).Nodup →
      (∀ p ∈ vm, p.2 ∈ ms) →
      ∀ p ∈ (buildMembers cls cd ms vm idx).2, p.2 ∈ (buildMembers cls cd ms vm idx).1 := by
  induction cd with
  | nil =>
    intro ms vm idx _ _ hsub p hp
    simp only [buildMembers] at hp ⊢
    exact hsub p hp
  | cons b rest ih =>
    obtain ⟨n, v⟩ := b
    intro ms vm idx hd hnd hsub
    have hnd' : (rest.map Prod.fst).Nodup := (List.nodup_cons.1 (by simpa using hnd)).2
    have hn : n ∉ rest.map Prod.fst := (List.nodup_cons.1 (by simpa using hnd)).1
    by_cases hs : skipBinding n v = true
    · rw [buildMembers, if_pos hs]
      exact ih ms vm idx (fun x hx b hb => hd x hx b (List.mem_cons_of_mem _ hb)) hnd' hsub
    · have hfresh : ∀ x ∈ ms, x.name ≠ (mkMember cls n v idx).name := by
        intro x hx
        simpa [mkMember] using hd x hx (n, v) (List.mem_cons_self _ _)
      rw [buildMembers, if_neg hs, odInsert_fresh hfresh]
      apply ih (ms ++ [mkMember cls n v idx]) (valueMapInsert vm v (mkMember cls n v idx))
        (idx + 1)
      · intro x hx b hb
        rcases List.mem_append.1 hx with hx | hx
        · exact hd x hx b (List.mem_cons_of_mem _ hb)
        · have hxm : x = mkMember cls n v idx := by simpa using hx
          rw [hxm]
          show n ≠ b.1
          intro heq
          exact hn (heq ▸ List.mem_map_of_mem Prod.fst hb)
      · exact hnd'
      · intro p hp
        by_cases hv : v.hashable = true
        · rw [valueMapInsert, if_pos hv] at hp
          rcases mem_dictSet hp with h | h
          · rw [h]
            exact List.mem_append_right _ (List.mem_singleton.2 rfl)
          · exact List.mem_append_left _ (hsub p h)
        · rw [valueMapInsert, if_neg hv] at hp
          exact List.mem_append_left _ (hsub p hp)

theorem buildMembers_mem_imp {cls : String} (P : Member → Prop)
    (hP : ∀ n v i, P (mkMember cls n v i)) (cd : List (String × PyVal)) :
    ∀ (ms : List Member) (vm : List (PyVal × Member)) (idx : Nat),
      (∀ x ∈ ms, P x) →
      ∀ x ∈ (buildMembers cls cd ms vm idx).1, P x := by
  induction cd with
  | nil =>
    intro ms vm idx hms x hx
    simp only [buildMembers] at hx
    exact hms x hx
  | cons b rest ih =>
    obtain ⟨n, v⟩ := b
    intro ms vm idx hms x hx
    by_cases hs : skipBinding n v = true
    · rw [buildMembers, if_pos hs] at hx
      exact ih ms vm idx hms x hx
    · rw [buildMembers, if_neg hs] at hx
      refine ih _ _ (idx + 1) ?_ x hx
      intro y hy
      rcases mem_odInsert hy with h | h
      · exact hms y h
      · exact h ▸ hP n v idx

/-- The final member list of a constructed type, in declaration order. -/
theorem enumNew_members (cls : String) (cd : List (String × PyVal))
    (hnd : (cd.map Prod.fst).Nodup) :
    (enumNew cls cd).members = mkList cls cd 0 := by
  have h := buildMembers_fst cls cd [] [] 0 (by simp) hnd
  simpa [enumNew] using h

/-- The value index of a constructed type, seen through `dict` lookup: for a
hashable key it returns the last member in declaration order whose value
equals the key. -/
theorem enumNew_valueMap_spec (cls : String) (cd : List (String × PyVal))
    (hnd : (cd.map Prod.fst).Nodup) (k : PyVal) (hk : k.hashable = true) :
    dictGet? (enumNew cls cd).valueMap k
      = (((enumNew cls cd).members.filter fun x => x.value == k).getLast?) := by
  exact buildMembers_snd cls cd [] [] 0 (by simp) hnd
    (by intro k hk; simp [dictGet?, hk]) k hk

/-- Every entry of the value index maps to a member of the type. -/
theorem enumNew_valueMap_sub (cls : String) (cd : List (String × PyVal))
    (hnd : (cd.map Prod.fst).Nodup) :
    ∀ p ∈ (enumNew cls cd).valueMap, p.2 ∈ (enumNew cls cd).members := by
  have h := buildMembers_vm_sub cls cd [] [] 0 (by simp) hnd (by simp)
  simpa [enumNew] using h

/-! ### Generic list facts used by the query proofs -/

theorem find?_eq_of_unique {α : Type} {l : List α} {p : α → Bool} {m : α}
    (hm : m ∈ l) (hpm : p m = true) (huniq : ∀ x ∈ l, p x = true → x = m) :
    l.find? p = some m := by
  induction l with
  | nil => cases hm
  | cons a rest ih =>
    by_cases ha : p a = true
    · simp only [List.find?, ha]
      exact congrArg some (huniq a (List.mem_cons_self a rest) ha)
    · have ha' : p a = false := by simpa using ha
      simp only [List.find?, ha']
      refine ih ?_ (fun x hx hpx => huniq x (List.mem_cons_of_mem _ hx) hpx)
      rcases List.mem_cons.1 hm with h | h
      · exact absurd (h ▸ hpm) (h ▸ ha)
      · exact h

theorem find?_append_first {α : Type} {pre post : List α} {p : α → Bool} {m : α}
    (hpre : ∀ x ∈ pre, p x = false) (hm : p m = true) :
    (pre ++ m :: post).find? p = some m := by
  induction pre with
  | nil => simp only [List.nil_append, List.find?, hm]
  | cons a t ih =>
    have ha : p a = false := hpre a (List.mem_cons_self a t)
    simp only [List.cons_append, List.find?, ha]
    exact ih (fun x hx => hpre x (List.mem_cons_of_mem _ hx))

theorem getLast?_eq_of_all_eq {α : Type} {l : List α} {m : α}
    (hne : l ≠ []) (hall : ∀ x ∈ l, x = m) : l.getLast? = some m := by
  rw [List.getLast?_eq_getLast_of_ne_nil hne]
  exact congrArg some (hall _ (List.getLast_mem hne))

theorem mem_of_getLast?_eq_some {α : Type} {l : List α} {m : α}
    (h : l.getLast? = some m) : m ∈ l := by
  rcases List.mem_getLast?_eq_getLast (Option.mem_def.2 h) with ⟨hne, hEq⟩
  rw [hEq]
  exact List.getLast_mem hne

/-! ### The claims -/

/-- C2: For every enumeration type `T` and every member `m` of `T`,
coerce-or-convert applied to the member itself returns that same member
object unchanged: `T(m) is m` — the `isinstance` fast path of
`EnumMeta.__call__`. -/
theorem coerce_idempotent (cls : String) (cd : List (String × PyVal))
    (m : Member) (hm : m ∈ (enumNew cls cd).members) :
    enumCall (enumNew cls cd) (.mem m) = .ok m := by
  have hcls : m.cls = cls :=
    @buildMembers_mem_imp cls (fun x => x.cls = cls) (fun _ _ _ => rfl) cd [] [] 0
      (by simp) m (by simpa [enumNew] using hm)
  have hb : (m.cls == (enumNew cls cd).ename) = true := beq_iff_eq.2 hcls
  simp [enumCall, hb]

/-- C7: For every member `m` of every enumeration type, `hash(m)` equals
`hash(m.name)`: the hash is the cached `_hash`, precomputed from the name
alone at construction time, so it is independent of the value of the
member. -/
theorem hash_from_name (cls : String) (cd : List (String × PyVal))
    (m : Member) (hm : m ∈ (enumNew cls cd).members) :
    enumHash m = pyHashStr m.name :=
  @buildMembers_mem_imp cls (fun x => x.mhash = pyHashStr x.name) (fun _ _ _ => rfl)
    cd [] [] 0 (by simp) m (by simpa [enumNew] using hm)

/-- C5: Forward iteration yields the members exactly in declaration order
(one member per non-skipped binding, names and values in the order the
class body declared them), and reverse iteration yields exactly the
reversal of the forward sequence. -/
theorem iteration_declaration_order (cls : String) (cd : List (String × PyVal))
    (hnd : (cd.map Prod.fst).Nodup) :
    (enumIter (enumNew cls cd)).map (fun m => (m.name, m.value))
        = cd.filter (fun b => !skipBinding b.1 b.2)
      ∧ enumReversed (enumNew cls cd) = (enumIter (enumNew cls cd)).reverse :=
  ⟨by rw [enumIter, enumNew_members cls cd hnd, mkList_pairs], rfl⟩

/-- C4: `T[n]` returns the member whose declared name equals `n` exactly
(case-sensitive, no partial matching), and raises `KeyError(n)` precisely
when no member was declared with that exact name. -/
theorem getitem_exact_match (cls : String) (cd : List (String × PyVal))
    (hnd : (cd.map Prod.fst).Nodup) (n : String) :
    (∀ m : Member, enumGetitem (enumNew cls cd) n = .ok m ↔
        m ∈ (enumNew cls cd).members ∧ m.name = n)
      ∧ (enumGetitem (enumNew cls cd) n = .error (.keyError n) ↔
          ∀ m ∈ (enumNew cls cd).members, m.name ≠ n) := by
  have hnames : (((enumNew cls cd).members).map Member.name).Nodup := by
    rw [enumNew_members cls cd hnd, mkList_names]
    exact List.Nodup.sublist (List.Sublist.map Prod.fst (List.filter_sublist cd)) hnd
  constructor
  · intro m
    constructor
    · intro h
      cases hfind : (enumNew cls cd).members.find? (fun x => x.name == n) with
      | none =>
        simp only [enumGetitem, hfind] at h
        cases h
      | some m' =>
        simp only [enumGetitem, hfind] at h
        injection h with h
        have hpm := List.find?_some hfind
        exact h ▸ ⟨List.mem_of_find?_eq_some hfind, beq_iff_eq.1 hpm⟩
    · intro ⟨hmem, hname⟩
      have hfind : (enumNew cls cd).members.find? (fun x => x.name == n) = some m := by
        refine find?_eq_of_unique hmem (beq_iff_eq.2 hname) ?_
        intro x hx hpx
        exact List.inj_on_of_nodup_map hnames hx hmem ((beq_iff_eq.1 hpx).trans hname.symm)
      simp only [enumGetitem, hfind]
  · constructor
    · intro h m hm hn
      cases hfind : (enumNew cls cd).members.find? (fun x => x.name == n) with
      | none =>
        exact (List.find?_eq_none.1 hfind m hm) (beq_iff_eq.2 hn)
      | some m' =>
        simp only [enumGetitem, hfind] at h
        cases h
    · intro h
      have hfind : (enumNew cls cd).members.find? (fun x => x.name == n) = none :=
        List.find?_eq_none.2 fun x hx => by simpa using h x hx
      simp only [enumGetitem, hfind]

/-- C3: For a plain value `v`, coerce-or-convert raises exactly when no
value of any member compares equal to `v` (both the value-index lookup and the
linear fallback miss), and the `ValueError` carries the offending value and
the type name. -/
theorem invalid_value_error_iff (cls : String) (cd : List (String × PyVal))
    (hnd : (cd.map Prod.fst).Nodup) (v : PyVal) :
    enumCall (enumNew cls cd) (.val v)
        = .error (.valueError (invalidValueMsg (pyStr v) cls))
      ↔ ∀ m ∈ (enumNew cls cd).members, m.value ≠ v := by
  cases hget : dictGet? (enumNew cls cd).valueMap v with
  | some m =>
    have hv : v.hashable = true := by
      by_contra hv
      rw [dictGet?, if_neg hv] at hget
      cases hget
    have hspec := enumNew_valueMap_spec cls cd hnd v hv
    rw [hget] at hspec
    have hmm := List.mem_filter.1 (mem_of_getLast?_eq_some hspec.symm)
    constructor
    · intro h
      simp only [enumCall, hget] at h
      cases h
    · intro h
      exact absurd (beq_iff_eq.1 hmm.2) (h m hmm.1)
  | none =>
    cases hfind : (enumNew cls cd).members.find? (fun x => x.value == v) with
    | some m =>
      constructor
      · intro h
        simp only [enumCall, hget, hfind] at h
        cases h
      · intro h
        have hpm := List.find?_some hfind
        exact absurd (beq_iff_eq.1 hpm) (h m (List.mem_of_find?_eq_some hfind))
    | none =>
      constructor
      · intro _ m hm hv
        exact (List.find?_eq_none.1 hfind m hm) (beq_iff_eq.2 hv)
      · intro _
        simp only [enumCall, hget, hfind]
        rfl

/-- C1: If `v` is the value of exactly one member `m` of `T` (whether or
not `v` is hashable), then `T(v)` returns `m`: hashable values resolve
through the value index, values absent from the index resolve through the
linear scan. -/
theorem coerce_unique_value (cls : String) (cd : List (String × PyVal))
    (hnd : (cd.map Prod.fst).Nodup) (v : PyVal) (m : Member)
    (hm : m ∈ (enumNew cls cd).members) (hv : m.value = v)
    (huniq : ∀ x ∈ (enumNew cls cd).members, x.value = v → x = m) :
    enumCall (enumNew cls cd) (.val v) = .ok m := by
  by_cases hvh : v.hashable = true
  · have hspec := enumNew_valueMap_spec cls cd hnd v hvh
    have hfil : (((enumNew cls cd).members.filter fun x => x.value == v).getLast?)
        = some m := by
      refine getLast?_eq_of_all_eq
        (List.ne_nil_of_mem (List.mem_filter.2 ⟨hm, beq_iff_eq.2 hv⟩)) ?_
      intro x hx
      have hx' := List.mem_filter.1 hx
      exact huniq x hx'.1 (beq_iff_eq.1 hx'.2)
    rw [hfil] at hspec
    simp only [enumCall, hspec]
  · have hnone : dictGet? (enumNew cls cd).valueMap v = none := by
      rw [dictGet?, if_neg hvh]
    have hfind : (enumNew cls cd).members.find? (fun x => x.value == v) = some m :=
      find?_eq_of_unique hm (beq_iff_eq.2 hv)
        (fun x hx hpx => huniq x hx (beq_iff_eq.1 hpx))
    simp only [enumCall, hnone, hfind]

/-- C10: When the value-index lookup misses (unhashable value, or a value
absent from the index), the linear fallback returns the first member in
declaration order whose value compares equal — the earliest-declared one,
the opposite tie-break from the last-declared-wins rule of the index. -/
theorem linear_fallback_first_declared (cls : String) (cd : List (String × PyVal))
    (v : PyVal) (pre post : List Member) (m : Member)
    (hmiss : dictGet? (enumNew cls cd).valueMap v = none)
    (hsplit : (enumNew cls cd).members = pre ++ m :: post)
    (hpre : ∀ x ∈ pre, x.value ≠ v) (hv : m.value = v) :
    enumCall (enumNew cls cd) (.val v) = .ok m := by
  have hfind : (enumNew cls cd).members.find? (fun x => x.value == v) = some m := by
    rw [hsplit]
    exact find?_append_first (fun x hx => beq_eq_false_iff_ne.2 (hpre x hx))
      (beq_iff_eq.2 hv)
  simp only [enumCall, hmiss, hfind]

/-- C8: Construction turns exactly the bindings whose name does not start
with an underscore and whose value is not a descriptor into members; `len(T)`
counts exactly those bindings; a skipped binding contributes to neither the
member list nor the value index. -/
theorem construction_filters_bindings (cls : String) (cd : List (String × PyVal))
    (hnd : (cd.map Prod.fst).Nodup) :
    ((enumNew cls cd).members.map Member.name
        = (cd.filter fun b => !skipBinding b.1 b.2).map Prod.fst)
      ∧ enumLen (enumNew cls cd) = (cd.filter fun b => !skipBinding b.1 b.2).length
      ∧ ∀ n v, (n, v) ∈ cd → skipBinding n v = true →
          (∀ m ∈ (enumNew cls cd).members, m.name ≠ n)
            ∧ ∀ p ∈ (enumNew cls cd).valueMap, p.2.name ≠ n := by
  have hnames : (enumNew cls cd).members.map Member.name
      = (cd.filter fun b => !skipBinding b.1 b.2).map Prod.fst := by
    rw [enumNew_members cls cd hnd, mkList_names]
  have hlen : enumLen (enumNew cls cd)
      = (cd.filter fun b => !skipBinding b.1 b.2).length := by
    rw [enumLen, ← List.length_map (enumNew cls cd).members Member.name, hnames,
      List.length_map]
  refine ⟨hnames, hlen, ?_⟩
  intro n v hnv hskip
  have hnotin : n ∉ ((cd.filter fun b => !skipBinding b.1 b.2).map Prod.fst) := by
    intro hmem
    rcases List.mem_map.1 hmem with ⟨b, hb, hb1⟩
    have hbeq : b = (n, v) :=
      List.inj_on_of_nodup_map hnd (List.mem_of_mem_filter hb) hnv (by rw [hb1])
    have hfb := (List.mem_filter.1 hb).2
    rw [hbeq] at hfb
    simp [hskip] at hfb
  have hmemb : ∀ m ∈ (enumNew cls cd).members, m.name ≠ n := by
    intro m hm hmn
    have : m.name ∈ (enumNew cls cd).members.map Member.name :=
      List.mem_map_of_mem Member.name hm
    rw [hnames] at this
    exact hnotin (hmn ▸ this)
  refine ⟨hmemb, ?_⟩
  intro p hp
  exact hmemb p.2 (enumNew_valueMap_sub cls cd hnd p hp)

/-- C6: A type declaring two members `A` then `B` with the same hashable
value resolves that value to the last-declared member (`T(v) is B`: last
writer wins in the value index), while `A` stays reachable by name as a
distinct object whose hash comes from its own name. -/
theorem duplicate_hashable_value_last_wins (cls nA nB : String) (v : PyVal)
    (hA : skipBinding nA v = false) (hB : skipBinding nB v = false)
    (hAB : nA ≠ nB) (hv : v.hashable = true) :
    enumCall (enumNew cls [(nA, v), (nB, v)]) (.val v) = .ok (mkMember cls nB v 1)
      ∧ enumGetitem (enumNew cls [(nA, v), (nB, v)]) nA = .ok (mkMember cls nA v 0)
      ∧ mkMember cls nA v 0 ≠ mkMember cls nB v 1
      ∧ enumHash (mkMember cls nA v 0) = pyHashStr nA
      ∧ enumHash (mkMember cls nB v 1) = pyHashStr nB := by
  have hnAB : (nA == nB) = false := beq_eq_false_iff_ne.2 hAB
  have hbuild : buildMembers cls [(nA, v), (nB, v)] [] [] 0
      = ([mkMember cls nA v 0, mkMember cls nB v 1], [(v, mkMember cls nB v 1)]) := by
    simp [buildMembers, hA, hB, odInsert, valueMapInsert, hv, dictSet, mkMember, hnAB]
  refine ⟨?_, ?_, ?_, rfl, rfl⟩
  · simp only [enumCall, enumNew, hbuild]
    simp [dictGet?, hv, List.find?]
  · simp only [enumGetitem, enumNew, hbuild]
    simp [List.find?, mkMember]
  · intro h
    have h0 : (0 : Nat) = 1 := congrArg Member.idx h
    exact absurd h0 (by decide)

/-- C9: Type construction never fails except when a per-member `__init__`
hook raises; the exception of the hook propagates unmodified and aborts
construction entirely, so a partially constructed type is never published
(when every hook call succeeds, the published type is exactly the one the
hook-free construction builds). -/
theorem construction_fails_only_on_hook (hook : Member → Except PyErr Unit)
    (cls : String) (cd : List (String × PyVal)) :
    (∀ e, enumNewH hook cls cd = .error e → ∃ m, hook m = .error e)
      ∧ ((∀ m, hook m = .ok ()) → enumNewH hook cls cd = .ok (enumNew cls cd)) := by
  have herr : ∀ (cd' : List (String × PyVal)) ms vm idx e,
      buildMembersH hook cls cd' ms vm idx = .error e → ∃ m, hook m = .error e := by
    intro cd'
    induction cd' with
    | nil =>
      intro ms vm idx e h
      cases h
    | cons b rest ih =>
      obtain ⟨n, v⟩ := b
      intro ms vm idx e h
      by_cases hs : skipBinding n v = true
      · rw [buildMembersH, if_pos hs] at h
        exact ih ms vm idx e h
      · rw [buildMembersH, if_neg hs] at h
        cases hh : hook (mkMember cls n v idx) with
        | error e' =>
          simp only [hh] at h
          injection h with h
          exact ⟨mkMember cls n v idx, h ▸ hh⟩
        | ok u =>
          cases u
          simp only [hh] at h
          exact ih _ _ _ e h
  have htot : ∀ (htot : ∀ m, hook m = .ok ()) (cd' : List (String × PyVal)) ms vm idx,
      buildMembersH hook cls cd' ms vm idx = .ok (buildMembers cls cd' ms vm idx) := by
    intro htot cd'
    induction cd' with
    | nil => intro ms vm idx; rfl
    | cons b rest ih =>
      obtain ⟨n, v⟩ := b
      intro ms vm idx
      by_cases hs : skipBinding n v = true
      · rw [buildMembersH, if_pos hs, buildMembers, if_pos hs]
        exact ih ms vm idx
      · rw [buildMembersH, if_neg hs, buildMembers, if_neg hs]
        simp only [htot (mkMember cls n v idx)]
        exact ih _ _ _
  constructor
  · intro e h
    cases hb : buildMembersH hook cls cd [] [] 0 with
    | ok p =>
      rw [enumNewH, hb] at h
      cases h
    | error e' =>
      rw [enumNewH, hb] at h
      injection h with h
      exact h ▸ herr cd [] [] 0 e' hb
  · intro ht
    rw [enumNewH, htot ht cd [] [] 0]
    rfl

/-! ### Concrete witnesses -/

/-- Witness for C1 on the unhashable path: in
`Color = {RED: 1, SPECIAL: [1, 2]}` the mutable list `[1, 2]` is the value
of exactly `SPECIAL`, and `Color([1, 2])` finds it by linear scan. -/
theorem coerce_unique_value_witness :
    enumCall (enumNew "Color" [("RED", PyVal.int 1), ("SPECIAL", PyVal.list [1, 2])])
        (.val (PyVal.list [1, 2]))
      = .ok (mkMember "Color" "SPECIAL" (PyVal.list [1, 2]) 1) :=
  coerce_unique_value "Color" [("RED", PyVal.int 1), ("SPECIAL", PyVal.list [1, 2])]
    (by decide) (PyVal.list [1, 2]) (mkMember "Color" "SPECIAL" (PyVal.list [1, 2]) 1)
    (by decide) (by decide) (by decide)

/-- Witness for C2: `Color(Color.RED) is Color.RED`. -/
theorem coerce_idempotent_witness :
    enumCall (enumNew "Color" [("RED", PyVal.int 1)])
        (.mem (mkMember "Color" "RED" (PyVal.int 1) 0))
      = .ok (mkMember "Color" "RED" (PyVal.int 1) 0) :=
  coerce_idempotent "Color" [("RED", PyVal.int 1)]
    (mkMember "Color" "RED" (PyVal.int 1) 0) (by decide)

/-- Witness for C3: `Color(5)` raises `ValueError` carrying the value and
the type name. -/
theorem invalid_value_error_iff_witness :
    enumCall (enumNew "Color" [("RED", PyVal.int 1), ("GREEN", PyVal.int 2)])
        (.val (PyVal.int 5))
      = .error (.valueError (invalidValueMsg (pyStr (PyVal.int 5)) "Color")) :=
  (invalid_value_error_iff "Color" [("RED", PyVal.int 1), ("GREEN", PyVal.int 2)]
    (by decide) (PyVal.int 5)).2 (by decide)

/-- Witness for C4: the lookup of GREEN succeeds with the exact-name member
while the differently-cased lookup of green raises `KeyError`. -/
theorem getitem_exact_match_witness :
    enumGetitem (enumNew "Color" [("RED", PyVal.int 1), ("GREEN", PyVal.int 2)]) "GREEN"
        = .ok (mkMember "Color" "GREEN" (PyVal.int 2) 1)
      ∧ enumGetitem (enumNew "Color" [("RED", PyVal.int 1), ("GREEN", PyVal.int 2)]) "green"
        = .error (.keyError "green") :=
  ⟨((getitem_exact_match "Color" [("RED", PyVal.int 1), ("GREEN", PyVal.int 2)]
      (by decide) "GREEN").1 (mkMember "Color" "GREEN" (PyVal.int 2) 1)).2
      ⟨by decide, by decide⟩,
   ((getitem_exact_match "Color" [("RED", PyVal.int 1), ("GREEN", PyVal.int 2)]
      (by decide) "green").2).2 (by decide)⟩

/-- Witness for C5 at `Color = {RED: 1, GREEN: 2, BLUE: 3}`. -/
theorem iteration_declaration_order_witness :
    (enumIter (enumNew "Color"
          [("RED", PyVal.int 1), ("GREEN", PyVal.int 2), ("BLUE", PyVal.int 3)])).map
        (fun m => (m.name, m.value))
        = ([("RED", PyVal.int 1), ("GREEN", PyVal.int 2), ("BLUE", PyVal.int 3)]
            : List (String × PyVal)).filter (fun b => !skipBinding b.1 b.2)
      ∧ enumReversed (enumNew "Color"
            [("RED", PyVal.int 1), ("GREEN", PyVal.int 2), ("BLUE", PyVal.int 3)])
        = (enumIter (enumNew "Color"
            [("RED", PyVal.int 1), ("GREEN", PyVal.int 2), ("BLUE", PyVal.int 3)])).reverse :=
  iteration_declaration_order "Color"
    [("RED", PyVal.int 1), ("GREEN", PyVal.int 2), ("BLUE", PyVal.int 3)] (by decide)

/-- Witness for C6 at `Flags = {A: 1, B: 1}`. -/
theorem duplicate_hashable_value_last_wins_witness :
    enumCall (enumNew "Flags" [("A", PyVal.int 1), ("B", PyVal.int 1)]) (.val (PyVal.int 1))
        = .ok (mkMember "Flags" "B" (PyVal.int 1) 1)
      ∧ enumGetitem (enumNew "Flags" [("A", PyVal.int 1), ("B", PyVal.int 1)]) "A"
        = .ok (mkMember "Flags" "A" (PyVal.int 1) 0)
      ∧ mkMember "Flags" "A" (PyVal.int 1) 0 ≠ mkMember "Flags" "B" (PyVal.int 1) 1
      ∧ enumHash (mkMember "Flags" "A" (PyVal.int 1) 0) = pyHashStr "A"
      ∧ enumHash (mkMember "Flags" "B" (PyVal.int 1) 1) = pyHashStr "B" :=
  duplicate_hashable_value_last_wins "Flags" "A" "B" (PyVal.int 1)
    (by decide) (by decide) (by decide) (by decide)

/-- Witness for C7: the hash of Color.RED equals the hash of the string RED. -/
theorem hash_from_name_witness :
    enumHash (mkMember "Color" "RED" (PyVal.int 1) 0) = pyHashStr "RED" :=
  hash_from_name "Color" [("RED", PyVal.int 1)]
    (mkMember "Color" "RED" (PyVal.int 1) 0) (by decide)

/-- Witness for C8: a `_`-prefixed binding and a descriptor binding are
skipped, leaving one member; the skipped name names no member. -/
theorem construction_filters_bindings_witness :
    ((enumNew "Color" [("RED", PyVal.int 1), ("_internal", PyVal.int 2),
          ("describe", PyVal.obj true false false 7)]).members.map Member.name
        = (([("RED", PyVal.int 1), ("_internal", PyVal.int 2),
            ("describe", PyVal.obj true false false 7)]
              : List (String × PyVal)).filter fun b => !skipBinding b.1 b.2).map Prod.fst)
      ∧ enumLen (enumNew "Color" [("RED", PyVal.int 1), ("_internal", PyVal.int 2),
            ("describe", PyVal.obj true false false 7)])
        = (([("RED", PyVal.int 1), ("_internal", PyVal.int 2),
            ("describe", PyVal.obj true false false 7)]
              : List (String × PyVal)).filter fun b => !skipBinding b.1 b.2).length
      ∧ (mkMember "Color" "RED" (PyVal.int 1) 0).name ≠ "_internal" := by
  have h := construction_filters_bindings "Color"
    [("RED", PyVal.int 1), ("_internal", PyVal.int 2),
      ("describe", PyVal.obj true false false 7)] (by decide)
  exact ⟨h.1, h.2.1,
    (h.2.2 "_internal" (PyVal.int 2) (by decide) (by decide)).1
      (mkMember "Color" "RED" (PyVal.int 1) 0) (by decide)⟩

/-- Witness for C9: a raising hook aborts construction with its own
exception, while a non-raising hook publishes the hook-free type. -/
theorem construction_fails_only_on_hook_witness :
    enumNewH (fun _ => .error (.hookError "boom")) "Color" [("RED", PyVal.int 1)]
        = .error (.hookError "boom")
      ∧ enumNewH (fun _ => .ok ()) "Color" [("RED", PyVal.int 1)]
        = .ok (enumNew "Color" [("RED", PyVal.int 1)]) :=
  ⟨by decide,
   (construction_fails_only_on_hook (fun _ => .ok ()) "Color"
      [("RED", PyVal.int 1)]).2 (fun _ => rfl)⟩

/-- Witness for C10: with two members sharing the unhashable value `[1]`,
the linear fallback returns the earliest-declared one. -/
theorem linear_fallback_first_declared_witness :
    enumCall (enumNew "U" [("A", PyVal.list [1]), ("B", PyVal.list [1])])
        (.val (PyVal.list [1]))
      = .ok (mkMember "U" "A" (PyVal.list [1]) 0) :=
  linear_fallback_first_declared "U" [("A", PyVal.list [1]), ("B", PyVal.list [1])]
    (PyVal.list [1]) [] [mkMember "U" "B" (PyVal.list [1]) 1]
    (mkMember "U" "A" (PyVal.list [1]) 0) (by decide) (by decide) (by decide) (by decide)

end Fastenum
